import Mathlib

/-!
A shallow embedding of the `jsonviews` streaming JSON filter (jsonviews.go).

Streams of runes are modelled as `List Char`.  Go's `bufio.Reader` rune
scanner is modelled by `Scanner`: the remaining input together with the
one-rune pushback slot (`lastRune`), which `ReadRune` fills on success and
clears on failure, exactly as `bufio` tracks `lastRuneSize`.

Go errors are modelled by `GoErr`; `io.EOF` is `GoErr.eof`, the error
`bufio.ErrInvalidUnreadRune` is `GoErr.invalidUnread`, `fmt.Errorf` results
are `GoErr.mk msg`, and the library's `SyntaxError{Offset, msg}` is
`GoErr.syntaxErr offset msg`.

Every parsing routine of the Go source writes runes to a `runeWriter` sink
whose `WriteRune` never fails on the reachable sinks (`bytes.Buffer`,
`discardWriter`, and the pipe writer absent consumer cancellation), so the
embedding returns the written runes (`out`), the byte count (`n`), the final
scanner, and the error as a `Res` value.  Sink selection (forward vs
discard) in `readObject` becomes routing of the returned `out`.

Go string/byte operations (`len`, `strings.HasPrefix`, `s[i]`) act on UTF-8
bytes; on valid Unicode text byte-level prefix/indexing-at-a-boundary
coincide with the rune-level operations used here.
-/

namespace Jsonviews

/-- UTF-8 encoded width of a rune, as Go's `utf8.RuneLen` (Lean `Char`
excludes surrogates and out-of-range code points). -/
def runeLen (c : Char) : Nat :=
  if c.toNat < 0x80 then 1
  else if c.toNat < 0x800 then 2
  else if c.toNat < 0x10000 then 3
  else 4

/-- Go errors relevant to the library. -/
inductive GoErr where
  | eof
  | invalidUnread
  | mk (msg : String)
  | syntaxErr (offset : Nat) (msg : String)
  | outOfFuel
deriving Repr, DecidableEq

/-- The message carried by an error (Go `err.Error()`). -/
def GoErr.msgOf : GoErr → String
  | .eof => "EOF"
  | .invalidUnread => "bufio: invalid use of UnreadRune"
  | .mk m => m
  | .syntaxErr _ m => m
  | .outOfFuel => "out of fuel"

/-- The state of the `io.RuneScanner` (`bufio.Reader`): remaining runes and
the one-rune pushback slot recording the last successfully read rune. -/
structure Scanner where
  inp : List Char
  lastRune : Option Char
deriving Repr, DecidableEq

/-- `bufio.Reader.ReadRune`: `none` is `io.EOF` (and invalidates the
pushback slot, as `bufio` sets `lastRuneSize = -1` on error). -/
def readRune : Scanner → Option (Char × Nat) × Scanner
  | ⟨[], _⟩ => (none, ⟨[], none⟩)
  | ⟨c :: rest, _⟩ => (some (c, runeLen c), ⟨rest, some c⟩)

/-- `bufio.Reader.UnreadRune`: fails (`none`) unless the previous operation
was a successful `ReadRune`. -/
def unreadRune : Scanner → Option Scanner
  | ⟨inp, some c⟩ => some ⟨c :: inp, none⟩
  | ⟨_, none⟩ => none

/-- The whitespace runes skipped by `peek`/`next`. -/
def isWS (c : Char) : Bool :=
  c = ' ' || c = '\t' || c = '\n' || c = '\r'

/-- Result of a parsing routine: runes written to its sink, the returned
byte count `n`, the final scanner, and the returned error (`none` = `nil`). -/
structure Res where
  out : List Char
  n : Nat
  sc : Scanner
  err : Option GoErr
deriving Repr, DecidableEq

/-- Loop of `next` (jsonviews.go:478-492): read runes, count bytes, stop at
the first non-whitespace rune, which is consumed. -/
def nextAux : List Char → Nat → Char × Nat × Scanner × Option GoErr
  | [], n => (Char.ofNat 0, n, ⟨[], none⟩, some .eof)
  | c :: rest, n =>
    if isWS c then nextAux rest (n + runeLen c)
    else (c, n + runeLen c, ⟨rest, some c⟩, none)

/-- `next` (jsonviews.go:478-492): the next non-space rune, consumed, with
the byte count including the skipped whitespace. -/
def next (sc : Scanner) : Char × Nat × Scanner × Option GoErr :=
  nextAux sc.inp 0

/-- Loop of `peek` (jsonviews.go:459-475): like `next` but the non-space
rune is unread again (`n -= s; UnreadRune`), so it is not consumed and not
counted. -/
def peekAux : List Char → Nat → Char × Nat × Scanner × Option GoErr
  | [], n => (Char.ofNat 0, n, ⟨[], none⟩, some .eof)
  | c :: rest, n =>
    if isWS c then peekAux rest (n + runeLen c)
    else (c, n, ⟨c :: rest, none⟩, none)

/-- `peek` (jsonviews.go:459-475). -/
def peek (sc : Scanner) : Char × Nat × Scanner × Option GoErr :=
  peekAux sc.inp 0

/-- The backslash escapes copied through verbatim (jsonviews.go:326). -/
def shortEsc (c : Char) : Bool :=
  c = '"' || c = '\\' || c = '/' || c = 'b' || c = 'f' || c = 'n' || c = 'r' || c = 't'

/-- The hex-digit test of the `\u` validator (jsonviews.go:340-347). -/
def hexDigit (c : Char) : Bool :=
  ('0' ≤ c && c ≤ '9') || ('a' ≤ c && c ≤ 'f') || ('A' ≤ c && c ≤ 'F')

/-- Error for a non-hex rune after `\u` (jsonviews.go:345-346). -/
def hexErrMsg (c : Char) : GoErr :=
  .mk ("illegal character after hex signifier: '" ++ String.mk [c] ++ "'")

/-- Error for an unknown escape (jsonviews.go:353). -/
def escErrMsg (c : Char) : GoErr :=
  .mk ("unexpected error after '/': '" ++ String.mk [c] ++ "'")

/-- One iteration of the `\u` hex-digit loop (jsonviews.go:334-351): read
a rune, count its bytes, validate it as hex and write it through; `.inl` is
the loop's early error return, `.inr` the state for the next iteration
(remaining input, written output, byte count). -/
def hexStep : List Char × List Char × Nat → Res ⊕ (List Char × List Char × Nat)
  | ([], out, n) => .inl ⟨out, n, ⟨[], none⟩, some .eof⟩
  | (h :: r, out, n) =>
    if ¬ hexDigit h then .inl ⟨out, n + runeLen h, ⟨r, some h⟩, some (hexErrMsg h)⟩
    else .inr (r, out ++ [h], n + runeLen h)

/-- The `for i := 0; i < 4` hex loop of `readString` (jsonviews.go:334-351). -/
def hex4 (st : List Char × List Char × Nat) : Res ⊕ (List Char × List Char × Nat) :=
  match hexStep st with
  | .inl r => .inl r
  | .inr st1 =>
    match hexStep st1 with
    | .inl r => .inl r
    | .inr st2 =>
      match hexStep st2 with
      | .inl r => .inl r
      | .inr st3 => hexStep st3

/-- The main loop of `readString` (jsonviews.go:306-360): copy runes to the
sink until the closing quote; `\\` starts an escape (the six short escapes
and `\\uXXXX` with four validated hex digits); errors return what was
already written.  The accumulator `out` is what has been written so far.
The fuel only bounds the iteration count (each iteration consumes input, so
`inp.length + 1` ticks always suffice, which is what `readString` passes). -/
def readStrLoop : Nat → List Char → List Char → Nat → Res
  | 0, inp, out, n => ⟨out, n, ⟨inp, none⟩, some .outOfFuel⟩
  | _ + 1, [], out, n => ⟨out, n, ⟨[], none⟩, some .eof⟩
  | fuel + 1, c :: rest, out, n =>
    if c = '"' then ⟨out ++ [c], n + runeLen c, ⟨rest, some c⟩, none⟩
    else if c = '\\' then
      match rest with
      | [] => ⟨out ++ [c], n + runeLen c, ⟨[], none⟩, some .eof⟩
      | e :: rest2 =>
        let n2 := n + runeLen c + runeLen e
        if shortEsc e then readStrLoop fuel rest2 (out ++ [c, e]) n2
        else if e = 'u' then
          match hex4 (rest2, out ++ [c, e], n2) with
          | .inl r => r
          | .inr (restH, outH, nH) => readStrLoop fuel restH outH nH
        else ⟨out ++ [c], n2, ⟨rest2, some e⟩, some (escErrMsg e)⟩
    else readStrLoop fuel rest (out ++ [c]) (n + runeLen c)

/-- `View.readString` (jsonviews.go:295-362): opening quote via `next`
(note the `return 0, err` on a failing `next`), then the copy loop. -/
def readString (sc : Scanner) : Res :=
  match next sc with
  | (_, _, sc1, some e) => ⟨[], 0, sc1, some e⟩
  | (r, n, sc1, none) =>
    if r ≠ '"' then ⟨[], n, sc1, some (.mk ("expected '\"' got '" ++ String.mk [r] ++ "'"))⟩
    else readStrLoop (sc1.inp.length + 1) sc1.inp ['"'] n

/-- The `readDigits` closure of `readNumber` (jsonviews.go:378-394): read
runes while they are digits, writing them through and counting bytes; the
first non-digit (or the read error) terminates.  Returns the terminating
rune, its byte width (`nn`, 0 on a failed read), the digits written, the
bytes counted, the scanner, and the error. -/
def readDigits : List Char → List Char → Nat → Char × Nat × List Char × Nat × Scanner × Option GoErr
  | [], out, n => (Char.ofNat 0, 0, out, n, ⟨[], none⟩, some .eof)
  | c :: rest, out, n =>
    if '0' ≤ c && c ≤ '9' then readDigits rest (out ++ [c]) (n + runeLen c)
    else (c, runeLen c, out, n, ⟨rest, some c⟩, none)

/-- Body of `View.readNumber` after the first `next` (jsonviews.go:377-456):
optional sign, integer part, optional fraction, optional exponent.  `r₀` is
the rune `next` produced and `nn₀` its reported byte count; the mutable
variables mirror the Go locals. -/
def numCore (r₀ : Char) (nn₀ : Nat) (sc₀ : Scanner) : Res := Id.run do
  let mut r := r₀
  let mut nn := nn₀
  let mut n : Nat := 0
  let mut out : List Char := []
  let mut sc := sc₀
  if r == '-' then
    n := n + nn
    out := out ++ [r]
    match readRune sc with
    | (none, sc') => return ⟨out, n, sc', some .eof⟩
    | (some (r', nn'), sc') =>
      r := r'
      nn := nn'
      sc := sc'
  if r == '0' then
    out := out ++ [r]
    n := n + nn
    match readRune sc with
    | (none, sc') => return ⟨out, n, sc', some .eof⟩
    | (some (r', nn'), sc') =>
      r := r'
      nn := nn'
      sc := sc'
  else if '1' ≤ r && r ≤ '9' then
    out := out ++ [r]
    n := n + nn
    match readDigits sc.inp [] 0 with
    | (_, _, dout, dn, sc', some e) => return ⟨out ++ dout, n + dn, sc', some e⟩
    | (r', nn', dout, dn, sc', none) =>
      r := r'
      nn := nn'
      out := out ++ dout
      n := n + dn
      sc := sc'
  if r == '.' then
    out := out ++ [r]
    n := n + nn
    match readDigits sc.inp [] 0 with
    | (_, _, dout, dn, sc', some e) => return ⟨out ++ dout, n + dn, sc', some e⟩
    | (r', nn', dout, dn, sc', none) =>
      r := r'
      nn := nn'
      out := out ++ dout
      n := n + dn
      sc := sc'
  if r == 'e' || r == 'E' then
    n := n + nn
    out := out ++ [r]
    match readRune sc with
    | (none, sc') => return ⟨out, n, sc', some .eof⟩
    | (some (r', nn'), sc') =>
      r := r'
      nn := nn'
      sc := sc'
    if r == '+' || r == '-' then
      n := n + nn
      out := out ++ [r]
      match readRune sc with
      | (none, sc') => return ⟨out, n, sc', some .eof⟩
      | (some (r', nn'), sc') =>
        r := r'
        nn := nn'
        sc := sc'
    match readDigits sc.inp [] 0 with
    | (_, _, dout, dn, sc', eOpt) => return ⟨out ++ dout, n + dn, sc', eOpt⟩
  return ⟨out, n, sc, none⟩

/-- The deferred block of `View.readNumber` (jsonviews.go:370-376): despite
its comment saying the lookahead rune "must always" be unread, the code
unreads only when `err != nil`, and then replaces `err` with the result of
`UnreadRune` (which, after a failed `ReadRune`, is the non-nil
`ErrInvalidUnreadRune`). -/
def numDefer (r : Res) : Res :=
  match r.err with
  | none => r
  | some _ =>
    match unreadRune r.sc with
    | some sc' => ⟨r.out, r.n, sc', none⟩
    | none => ⟨r.out, r.n, r.sc, some .invalidUnread⟩

/-- `View.readNumber` (jsonviews.go:364-457).  The first `next` is before
the `defer` is registered, so its error passes through untouched. -/
def readNumber (sc : Scanner) : Res :=
  match next sc with
  | (_, nn, sc1, some e) => ⟨[], nn, sc1, some e⟩
  | (r, nn, sc1, none) => numDefer (numCore r nn sc1)

/-- The literal loop of `View.readValue` (jsonviews.go:278-291): match the
expected literal rune by rune, writing matched runes through; `full` is the
whole expected literal, used in the error message. -/
def readLit (full : List Char) : List Char → Scanner → List Char → Nat → Res
  | [], sc, out, n => ⟨out, n, sc, none⟩
  | e :: es, sc, out, n =>
    match readRune sc with
    | (none, sc') => ⟨out, n, sc', some .eof⟩
    | (some (rr, nn), sc') =>
      if e ≠ rr then ⟨out, n + nn, sc', some (.mk ("expected '" ++ String.mk full ++ "'"))⟩
      else readLit full es sc' (out ++ [rr]) (n + nn)

/-- The retained filter paths, in insertion order (`View.filters`). -/
abbrev Filters := List (List Char)

/-- `View.skip` (jsonviews.go:50-68): walk the filters; `filter == curr`
keeps; otherwise order the pair by length, and if the shorter is a prefix
of the longer and the rune of the longer just past the shorter is `'.'`,
keep; else try the next filter.  Returns `true` (skip) when no filter
matched.  (Go compares and indexes UTF-8 bytes; on valid Unicode text this
coincides with the rune-level operations used here.) -/
def hasPre : List Char → List Char → Bool
  | _, [] => true
  | [], _ :: _ => false
  | a :: as, b :: bs => a = b && hasPre as bs

/-- `View.skip` continued: see the module comment for the byte/rune
correspondence. -/
def skip : Filters → List Char → Bool
  | [], _ => true
  | f :: rest, curr =>
    if f = curr then false
    else
      let p := if f.length < curr.length then (curr, f) else (f, curr)
      if ¬ hasPre p.1 p.2 then skip rest curr
      else if getElem? p.1 p.2.length = some '.' then false
      else skip rest curr

/-- `key[1 : len(key)-1]` (jsonviews.go:164): the key text without its
surrounding quotes. -/
def stripQuotes (key : List Char) : List Char :=
  (key.drop 1).dropLast

/-- The tail of an object-loop iteration after the value parse
(jsonviews.go:191-208): accumulate the value's output (unless the key was
skipped), then dispatch on the next rune: `'}'` ends the object, `','`
continues with the loop (`cont`, which restores the parent path), anything
else is a grammar error.  `pre` is what the iteration already wrote
(comma, key, colon — empty for a skipped key) and `nAcc` its byte count. -/
def objAfterValue (cont : Scanner → Res) (sk : Bool) (pre : List Char) (nAcc : Nat)
    (vres : Res) : Res :=
  let out := pre ++ if sk then [] else vres.out
  let n := nAcc + vres.n
  match vres.err with
  | some e => ⟨out, n, vres.sc, some e⟩
  | none =>
    match next vres.sc with
    | (_, nn3, sc3, some e) => ⟨out, n + nn3, sc3, some e⟩
    | (r3, nn3, sc3, none) =>
      if r3 = '}' then ⟨out, n + nn3, sc3, none⟩
      else if r3 = ',' then
        let r4 := cont sc3
        ⟨out ++ r4.out, n + nn3 + r4.n, r4.sc, r4.err⟩
      else ⟨out, n + nn3, sc3, some (.mk ("expected ':' got '" ++ String.mk [r3] ++ "'"))⟩

mutual

/-- `View.readValue` (jsonviews.go:252-293): peek the next rune and
dispatch to string, number, object, array or literal; a rune that starts
no value consumes nothing and returns `nil` (the empty `nextSlice` loop). -/
def readValue : Nat → Filters → List Char → Scanner → Res
  | 0, _, _, sc => ⟨[], 0, sc, some .outOfFuel⟩
  | fuel + 1, fl, curr, sc =>
    match peek sc with
    | (_, n, sc1, some e) => ⟨[], n, sc1, some e⟩
    | (r, n, sc1, none) =>
      if r = '"' then
        let res := readString sc1
        ⟨res.out, n + res.n, res.sc, res.err⟩
      else if r = '-' || ('0' ≤ r && r ≤ '9') then
        let res := readNumber sc1
        ⟨res.out, n + res.n, res.sc, res.err⟩
      else if r = '{' then
        let res := readObject fuel fl curr sc1
        ⟨res.out, n + res.n, res.sc, res.err⟩
      else if r = '[' then
        let res := readArray fuel fl curr sc1
        ⟨res.out, n + res.n, res.sc, res.err⟩
      else if r = 't' then readLit "true".toList "true".toList sc1 [] n
      else if r = 'f' then readLit "false".toList "false".toList sc1 [] n
      else if r = 'n' then readLit "null".toList "null".toList sc1 [] n
      else ⟨[], n, sc1, none⟩

/-- `View.readObject` (jsonviews.go:130-210): consume `{`, write it to the
outer sink, run the key/value loop with the entry path `curr` and an
accepted-key count of 0, and append the closing `}` (the deferred write) on
success only. -/
def readObject : Nat → Filters → List Char → Scanner → Res
  | 0, _, _, sc => ⟨[], 0, sc, some .outOfFuel⟩
  | fuel + 1, fl, curr, sc =>
    match next sc with
    | (_, n, sc1, some e) => ⟨[], n, sc1, some e⟩
    | (r, n, sc1, none) =>
      if r ≠ '{' then ⟨[], n, sc1, some (.mk ("expected '\x7b' got '" ++ String.mk [r] ++ "'"))⟩
      else
        let res := readObjectLoop fuel fl curr 0 sc1
        match res.err with
        | none => ⟨'{' :: res.out ++ ['}'], n + res.n, res.sc, none⟩
        | some e => ⟨'{' :: res.out, n + res.n, res.sc, some e⟩

/-- The key/value loop of `View.readObject` (jsonviews.go:150-209).  Each
iteration restores `v.curr` to the entry value `curr`, reads a key into its
own buffer, extends the path with the unquoted key, consults `skip` to pick
the sink (discarded output is dropped here), emits a comma when the
accepted-key count `num` exceeds 1 after counting this key, echoes the key
and the colon, parses the value at the extended path, and then continues or
ends at `,` / `}`. -/
def readObjectLoop : Nat → Filters → List Char → Nat → Scanner → Res
  | 0, _, _, _, sc => ⟨[], 0, sc, some .outOfFuel⟩
  | fuel + 1, fl, curr, num, sc =>
    let k := readString sc
    match k.err with
    | some e => ⟨[], k.n, k.sc, some e⟩
    | none =>
      let path := curr ++ '.' :: stripQuotes k.out
      let sk := skip fl path
      let num' := if sk then num else num + 1
      let emit : List Char := if sk then [] else (if num' > 1 then [','] else []) ++ k.out
      match next k.sc with
      | (_, nn2, sc2, some e) => ⟨emit, k.n + nn2, sc2, some e⟩
      | (r2, nn2, sc2, none) =>
        if r2 ≠ ':' then
          ⟨emit, k.n + nn2, sc2, some (.mk ("expected ':' got '" ++ String.mk [r2] ++ "'"))⟩
        else
          objAfterValue (readObjectLoop fuel fl curr num') sk
            (emit ++ if sk then [] else [':'])
            (k.n + nn2)
            (readValue fuel fl path sc2)

/-- `View.readArray` (jsonviews.go:212-250): consume `[`, write it, and run
the element loop; elements inherit the current path and sink. -/
def readArray : Nat → Filters → List Char → Scanner → Res
  | 0, _, _, sc => ⟨[], 0, sc, some .outOfFuel⟩
  | fuel + 1, fl, curr, sc =>
    match next sc with
    | (_, n, sc1, some e) => ⟨[], n, sc1, some e⟩
    | (r, n, sc1, none) =>
      if r ≠ '[' then ⟨[], n, sc1, some (.mk ("expected '[' got '" ++ String.mk [r] ++ "'"))⟩
      else
        let res := readArrayLoop fuel fl curr sc1
        ⟨'[' :: res.out, n + res.n, res.sc, res.err⟩

/-- The element loop of `View.readArray` (jsonviews.go:224-249): parse a
value, then `,` continues (and is echoed) and `]` ends (and is echoed); on
a failing `next` the count `nn` is not added (jsonviews.go:230-234). -/
def readArrayLoop : Nat → Filters → List Char → Scanner → Res
  | 0, _, _, sc => ⟨[], 0, sc, some .outOfFuel⟩
  | fuel + 1, fl, curr, sc =>
    let v := readValue fuel fl curr sc
    match v.err with
    | some e => ⟨v.out, v.n, v.sc, some e⟩
    | none =>
      match next v.sc with
      | (_, _, sc2, some e) => ⟨v.out, v.n, sc2, some e⟩
      | (r2, nn2, sc2, none) =>
        if r2 = ',' then
          let r4 := readArrayLoop fuel fl curr sc2
          ⟨v.out ++ ',' :: r4.out, v.n + nn2 + r4.n, r4.sc, r4.err⟩
        else if r2 = ']' then ⟨v.out ++ [']'], v.n + nn2, sc2, none⟩
        else ⟨v.out, v.n + nn2, sc2, some (.mk ("expected '[' or ',' got '" ++ String.mk [r2] ++ "'"))⟩

end

/-- The tail of `View.readJSON` (jsonviews.go:121-127): after the top-level
value, `next` must fail (EOF); a further rune is the "expected EOF" error,
and the error of `next` itself (io.EOF) is returned as is. -/
def jsonEnd (r : Res) : Res :=
  match next r.sc with
  | (_, _, sc2, some e) => ⟨r.out, r.n, sc2, some e⟩
  | (r2, _, sc2, none) =>
    ⟨r.out, r.n, sc2, some (.mk ("expected EOF, got '" ++ String.mk [r2] ++ "'"))⟩

/-- The deferred block of `View.readJSON` (jsonviews.go:92-99): any error
other than `io.EOF` is wrapped as a `SyntaxError` carrying the byte count
`n` accumulated so far; `io.EOF` passes through unwrapped. -/
def jsonWrap (r : Res) : Res :=
  match r.err with
  | none => r
  | some .eof => r
  | some e => ⟨r.out, r.n, r.sc, some (.syntaxErr r.n e.msgOf)⟩

/-- Body of `View.readJSON` (jsonviews.go:100-127): peek, require `{` or
`[`, parse that one value (the `View`'s path starts out empty), then
require EOF. -/
def readJSONCore (fuel : Nat) (fl : Filters) (sc : Scanner) : Res :=
  match peek sc with
  | (_, n, sc1, some e) => ⟨[], n, sc1, some e⟩
  | (r, n, sc1, none) =>
    if r = '{' then
      let res := readObject fuel fl [] sc1
      match res.err with
      | some e => ⟨res.out, n + res.n, res.sc, some e⟩
      | none => jsonEnd ⟨res.out, n + res.n, res.sc, none⟩
    else if r = '[' then
      let res := readArray fuel fl [] sc1
      match res.err with
      | some e => ⟨res.out, n + res.n, res.sc, some e⟩
      | none => jsonEnd ⟨res.out, n + res.n, res.sc, none⟩
    else ⟨[], n, sc1, some (.mk ("expected '\x7b' or '[' got '" ++ String.mk [r] ++ "'"))⟩

/-- `View.readJSON` (jsonviews.go:89-128): the body wrapped by the deferred
`SyntaxError` conversion. -/
def readJSON (fuel : Nat) (fl : Filters) (sc : Scanner) : Res :=
  jsonWrap (readJSONCore fuel fl sc)

/-- One full read-to-completion of a `View` (`NewView` + `AddFilter`s +
`Read` until the pipe ends, jsonviews.go:22-44): the goroutine runs
`readJSON`, flushes what was written, and closes the pipe with the error;
`CloseWithError(io.EOF)` is what readers observe as a clean end of stream.
The fuel bounds the recursion depth and loop count; `2*|input| + 8` ticks
always suffice because every tick consumes input. -/
def runView (fl : Filters) (input : List Char) : List Char × Option GoErr :=
  let r := readJSON (2 * input.length + 8) fl ⟨input, none⟩
  (r.out, r.err)

/-! ## Claim theorems -/

/-- C1: for the document `\x7b"menu":\x7b"id":"file","value":"File","popup":
\x7b"menuitem":[\x7b"value":"New"\x7d]\x7d\x7d\x7d` and the filters
`.menu.id`, `.menu.popup` added in that order, reading the View to
completion yields exactly `\x7b"menu":\x7b"id":"file","popup":
\x7b"menuitem":[\x7b"value":"New"\x7d]\x7d\x7d\x7d` followed by a clean end
of stream (the pipe is closed with `io.EOF`). -/
theorem view_concrete_scenario :
    runView [".menu.id".toList, ".menu.popup".toList]
      "\x7b\"menu\":\x7b\"id\":\"file\",\"value\":\"File\",\"popup\":\x7b\"menuitem\":[\x7b\"value\":\"New\"\x7d]\x7d\x7d\x7d".toList
    = ("\x7b\"menu\":\x7b\"id\":\"file\",\"popup\":\x7b\"menuitem\":[\x7b\"value\":\"New\"\x7d]\x7d\x7d\x7d".toList,
       some GoErr.eof) := by
  decide

/-- C2 counterexample: with no filters, the well-formed array document `[]`
is parsed successfully and passed through as `[]`, which is not the claimed
`\x7b\x7d`. -/
theorem emptyFilters_array_passthrough :
    runView [] "[]".toList = ("[]".toList, some GoErr.eof) ∧
    ("[]".toList : List Char) ≠ "\x7b\x7d".toList := by
  decide

/-- C3 (code bug): on the input `1,` the number parse returns success
(`err = nil`) with the terminating `,` consumed and not pushed back — the
scanner is exhausted, so the caller's next read yields EOF, not `,`.  The
deferred `UnreadRune` (jsonviews.go:370-376) runs only when `err != nil`,
contradicting its own comment that the lookahead rune "must always" be
unread. -/
theorem readNumber_drops_terminator :
    readNumber ⟨"1,".toList, none⟩ = ⟨['1'], 1, ⟨[], some ','⟩, none⟩ := by
  decide

/-- C6 (code bug): the merely truncated input `[1` is reported as a
`SyntaxError` rather than the end-of-input error: the EOF inside
`readNumber` is replaced by the failed `UnreadRune`'s non-EOF error in the
deferred block, which `readJSON` then wraps as a `SyntaxError`. -/
theorem truncated_number_syntax_error :
    runView [] "[1".toList
      = ("[1".toList, some (GoErr.syntaxErr 2 "bufio: invalid use of UnreadRune")) := by
  decide

/-- C7 (code bug): the well-formed document `[1,2]` is rejected with a
grammar error (the number parse consumed the `,` without pushing it back),
while the truncated non-document `\x7b"a"` is accepted with a clean end of
stream (mid-parse EOF is indistinguishable from the success signal
`io.EOF`). -/
theorem wellformed_rejected_truncated_accepted :
    runView [] "[1,2]".toList
      = ("[1".toList, some (GoErr.syntaxErr 3 "expected '[' or ',' got '2'")) ∧
    runView [] "\x7b\"a\"".toList = ("\x7b".toList, some GoErr.eof) := by
  decide

/-- C10: the empty array `[]` parses successfully and outputs `[]` (the
value dispatcher consumes nothing when it peeks `]`, as the third conjunct
shows, so the array loop's delimiter check sees it), while the empty object
`\x7b\x7d` fails with a syntax error because the object loop demands a
quoted key after `\x7b`. -/
theorem empty_array_ok_empty_object_rejected :
    runView [] "[]".toList = ("[]".toList, some GoErr.eof) ∧
    runView [] "\x7b\x7d".toList
      = ("\x7b".toList, some (GoErr.syntaxErr 2 "expected '\"' got '\x7d'")) ∧
    readValue 8 [] [] ⟨[']'], none⟩ = ⟨[], 0, ⟨[']'], none⟩, none⟩ := by
  decide

/-- The Path Matcher rule as the spec words it: a filter matches the
candidate path when they are equal, or one is a strict prefix of the other
with a `'.'` standing immediately after the shorter one inside the longer
one. -/
def specMatch (f curr : List Char) : Prop :=
  f = curr ∨ (∃ t, curr = f ++ '.' :: t) ∨ (∃ t, f = curr ++ '.' :: t)

lemma hasPre_iff (s pre : List Char) : hasPre s pre = true ↔ ∃ u, s = pre ++ u := by
  induction pre generalizing s with
  | nil => simp [hasPre]
  | cons b bs ih =>
    cases s with
    | nil => simp [hasPre]
    | cons a as =>
      simp [hasPre, ih, List.cons_append, List.cons.injEq]

lemma hasPre_dot_iff (f c : List Char) :
    (hasPre c f = true ∧ getElem? c f.length = some '.') ↔
      ∃ t, c = f ++ '.' :: t := by
  constructor
  · rintro ⟨h1, h2⟩
    obtain ⟨u, hu⟩ := (hasPre_iff c f).mp h1
    subst hu
    rw [List.getElem?_append_right (Nat.le_refl _), Nat.sub_self] at h2
    cases u with
    | nil => simp at h2
    | cons a u' =>
      simp only [List.getElem?_cons_zero, Option.some.injEq] at h2
      exact ⟨u', by rw [h2]⟩
  · rintro ⟨t, rfl⟩
    refine ⟨(hasPre_iff _ _).mpr ⟨'.' :: t, rfl⟩, ?_⟩
    rw [List.getElem?_append_right (Nat.le_refl _), Nat.sub_self]
    simp

lemma length_lt_of_dot (f c : List Char) (h : ∃ t, c = f ++ '.' :: t) :
    f.length < c.length := by
  obtain ⟨t, rfl⟩ := h
  simp [List.length_append]

lemma skip_iff_aux (fl : Filters) (curr : List Char) :
    skip fl curr = true ↔ ∀ f ∈ fl, ¬ specMatch f curr := by
  induction fl with
  | nil => simp [skip]
  | cons f rest ih =>
    by_cases hfc : f = curr
    · subst hfc
      simp [skip, specMatch]
    · have hspec : specMatch f curr ↔
          (∃ t, curr = f ++ '.' :: t) ∨ (∃ t, f = curr ++ '.' :: t) := by
        simp [specMatch, hfc]
      by_cases hlen : f.length < curr.length
      · have hnot2 : ¬ ∃ t, f = curr ++ '.' :: t := by
          intro h
          exact absurd (length_lt_of_dot curr f h) (by omega)
        by_cases hA : hasPre curr f = true ∧ getElem? curr f.length = some '.'
        · have hm : specMatch f curr := hspec.mpr (Or.inl ((hasPre_dot_iff f curr).mp hA))
          have : skip (f :: rest) curr = false := by
            rw [skip]
            simp only [if_neg hfc, if_pos hlen]
            rcases hA with ⟨hA1, hA2⟩
            simp [hA1, hA2]
          simp only [this, Bool.false_eq_true, false_iff]
          intro hall
          exact hall f (List.mem_cons_self f rest) hm
        · have hnm : ¬ specMatch f curr := by
            rw [hspec]
            rintro (h | h)
            · exact hA ((hasPre_dot_iff f curr).mpr h)
            · exact hnot2 h
          have : skip (f :: rest) curr = skip rest curr := by
            rw [skip]
            simp only [if_neg hfc, if_pos hlen]
            by_cases hA1 : hasPre curr f = true
            · have hA2 : ¬ getElem? curr f.length = some '.' := fun h => hA ⟨hA1, h⟩
              simp [hA1, hA2]
            · simp [hA1]
          rw [this, ih]
          constructor
          · intro hall g hg
            rcases List.mem_cons.mp hg with rfl | hg'
            · exact hnm
            · exact hall g hg'
          · intro hall g hg
            exact hall g (List.mem_cons_of_mem f hg)
      · have hnot1 : ¬ ∃ t, curr = f ++ '.' :: t := by
          intro h
          exact absurd (length_lt_of_dot f curr h) hlen
        by_cases hA : hasPre f curr = true ∧ getElem? f curr.length = some '.'
        · have hm : specMatch f curr := hspec.mpr (Or.inr ((hasPre_dot_iff curr f).mp hA))
          have : skip (f :: rest) curr = false := by
            rw [skip]
            simp only [if_neg hfc, if_neg hlen]
            rcases hA with ⟨hA1, hA2⟩
            simp [hA1, hA2]
          simp only [this, Bool.false_eq_true, false_iff]
          intro hall
          exact hall f (List.mem_cons_self f rest) hm
        · have hnm : ¬ specMatch f curr := by
            rw [hspec]
            rintro (h | h)
            · exact hnot1 h
            · exact hA ((hasPre_dot_iff curr f).mpr h)
          have : skip (f :: rest) curr = skip rest curr := by
            rw [skip]
            simp only [if_neg hfc, if_neg hlen]
            by_cases hA1 : hasPre f curr = true
            · have hA2 : ¬ getElem? f curr.length = some '.' := fun h => hA ⟨hA1, h⟩
              simp [hA1, hA2]
            · simp [hA1]
          rw [this, ih]
          constructor
          · intro hall g hg
            rcases List.mem_cons.mp hg with rfl | hg'
            · exact hnm
            · exact hall g hg'
          · intro hall g hg
            exact hall g (List.mem_cons_of_mem f hg)

/-- C4: the Path Matcher decides skip = true exactly when no filter in the
set equals the candidate path or extends/is extended by it across a `'.'`
separator; in particular the decision depends only on filter membership, so
reordering or duplicating filters never changes it. -/
theorem skip_matcher_characterization :
    (∀ (fl : Filters) (curr : List Char),
        skip fl curr = true ↔ ∀ f ∈ fl, ¬ specMatch f curr) ∧
    (∀ (fl₁ fl₂ : Filters) (curr : List Char),
        (∀ f, f ∈ fl₁ ↔ f ∈ fl₂) → skip fl₁ curr = skip fl₂ curr) := by
  refine ⟨skip_iff_aux, ?_⟩
  intro fl₁ fl₂ curr hm
  cases h2 : skip fl₂ curr with
  | true =>
    have := (skip_iff_aux fl₂ curr).mp h2
    exact (skip_iff_aux fl₁ curr).mpr fun f hf => this f ((hm f).mp hf)
  | false =>
    cases h1 : skip fl₁ curr with
    | true =>
      have := (skip_iff_aux fl₁ curr).mp h1
      have : skip fl₂ curr = true :=
        (skip_iff_aux fl₂ curr).mpr fun f hf => this f ((hm f).mpr hf)
      rw [h2] at this
      exact absurd this (by simp)
    | false => rfl

/-- Witness for C4: the characterization applied at concrete filters and
path, and duplication of a filter leaving the decision unchanged. -/
theorem skip_matcher_characterization_w :
    (skip [".menu.id".toList] ".menu".toList = true ↔
      ∀ f ∈ [".menu.id".toList], ¬ specMatch f ".menu".toList) ∧
    skip [".a".toList, ".a".toList] ".a.b".toList = skip [".a".toList] ".a.b".toList :=
  ⟨skip_matcher_characterization.1 [".menu.id".toList] ".menu".toList,
   skip_matcher_characterization.2 [".a".toList, ".a".toList] [".a".toList] ".a.b".toList
     (by intro f; simp [List.mem_cons])⟩

lemma objLoop_empty : ∀ fuel curr num sc out n sc',
    readObjectLoop fuel [] curr num sc = ⟨out, n, sc', none⟩ → out = [] := by
  intro fuel
  induction fuel with
  | zero =>
    intro curr num sc out n sc' h
    simp [readObjectLoop] at h
  | succ fuel ih =>
    intro curr num sc out n sc' h
    simp only [readObjectLoop, skip, if_pos, if_true] at h
    split at h
    · simp [Res.mk.injEq] at h
    · split at h
      · simp [Res.mk.injEq] at h
      · split at h
        · simp [Res.mk.injEq] at h
        · simp only [objAfterValue, if_true, List.nil_append] at h
          split at h
          · simp [Res.mk.injEq] at h
          · split at h
            · simp [Res.mk.injEq] at h
            · split at h
              · simp only [Res.mk.injEq] at h
                exact h.1.symm
              · split at h
                · simp only [Res.mk.injEq] at h
                  obtain ⟨ho, -, -, herr⟩ := h
                  have := ih _ _ _ _ _ _ (show readObjectLoop fuel [] _ _ _ = ⟨_, _, _, none⟩ by rw [← herr])
                  simp [← ho, this]
                · simp [Res.mk.injEq] at h

lemma objLoop_empty_out (fuel : Nat) (curr : List Char) (num : Nat) (sc : Scanner)
    (h : (readObjectLoop fuel [] curr num sc).err = none) :
    (readObjectLoop fuel [] curr num sc).out = [] :=
  objLoop_empty fuel curr num sc _ _ _ (by rw [← h])

/-- C2 amended: with an empty filter set every key of an object is skipped,
so any object parse that returns success forwards exactly `\x7b\x7d` to its
sink, whatever the document contents. -/
theorem emptyFilters_object_empty_output : ∀ fuel curr sc out n sc',
    readObject fuel [] curr sc = ⟨out, n, sc', none⟩ → out = ['{', '}'] := by
  intro fuel curr sc out n sc' h
  cases fuel with
  | zero => simp [readObject] at h
  | succ fuel =>
    simp only [readObject] at h
    split at h
    · simp [Res.mk.injEq] at h
    · split at h
      · simp [Res.mk.injEq] at h
      · split at h
        · simp only [Res.mk.injEq] at h
          obtain ⟨ho, -, -, -⟩ := h
          rename_i hL
          have := objLoop_empty_out fuel curr 0 _ hL
          simp [← ho, this]
        · simp [Res.mk.injEq] at h

/-- Witness for C2's amended theorem at the document `\x7b"a":"b"\x7d`. -/
theorem emptyFilters_object_empty_output_w :
    readObject 16 [] [] ⟨"\x7b\"a\":\"b\"\x7d".toList, none⟩
      = ⟨['{', '}'], 9, ⟨[], some '}'⟩, none⟩ ∧
    (['{', '}'] : List Char) = ['{', '}'] :=
  ⟨by decide,
   emptyFilters_object_empty_output 16 [] ⟨"\x7b\"a\":\"b\"\x7d".toList, none⟩
     ['{', '}'] 9 ⟨[], some '}'⟩ (by decide)⟩

lemma pre_of_pre_app (l X m : List Char) (h : (l ++ X) <+: m) : l <+: m :=
  List.IsPrefix.trans ⟨X, rfl⟩ h

set_option maxHeartbeats 1000000 in
lemma hexStep_inl_pre : ∀ st r, hexStep st = .inl r → st.2.1 <+: r.out := by
  intro st r h
  match st with
  | ([], out, n) =>
    simp only [hexStep, Sum.inl.injEq] at h
    subst h
    simp
  | (c :: rest, out, n) =>
    simp only [hexStep] at h
    split at h
    · simp only [Sum.inl.injEq] at h
      subst h
      simp
    · simp at h

lemma hexStep_inr_pre : ∀ st st', hexStep st = .inr st' → st.2.1 <+: st'.2.1 := by
  intro st st' h
  match st with
  | ([], out, n) => simp [hexStep] at h
  | (c :: rest, out, n) =>
    simp only [hexStep] at h
    split at h
    · simp at h
    · simp only [Sum.inr.injEq] at h
      subst h
      simp

lemma hex4_inl_pre : ∀ st r, hex4 st = .inl r → st.2.1 <+: r.out := by
  intro st r h
  unfold hex4 at h
  split at h
  · rename_i h1
    simp only [Sum.inl.injEq] at h
    subst h
    exact hexStep_inl_pre _ _ h1
  · rename_i st1 h1
    split at h
    · rename_i h2
      simp only [Sum.inl.injEq] at h
      subst h
      exact List.IsPrefix.trans (hexStep_inr_pre _ _ h1) (hexStep_inl_pre _ _ h2)
    · rename_i st2 h2
      split at h
      · rename_i h3
        simp only [Sum.inl.injEq] at h
        subst h
        exact List.IsPrefix.trans (hexStep_inr_pre _ _ h1)
          (List.IsPrefix.trans (hexStep_inr_pre _ _ h2) (hexStep_inl_pre _ _ h3))
      · rename_i st3 h3
        exact List.IsPrefix.trans (hexStep_inr_pre _ _ h1)
          (List.IsPrefix.trans (hexStep_inr_pre _ _ h2)
            (List.IsPrefix.trans (hexStep_inr_pre _ _ h3) (hexStep_inl_pre _ _ h)))

lemma hex4_inr_pre : ∀ st st', hex4 st = .inr st' → st.2.1 <+: st'.2.1 := by
  intro st st' h
  unfold hex4 at h
  split at h
  · simp at h
  · rename_i st1 h1
    split at h
    · simp at h
    · rename_i st2 h2
      split at h
      · simp at h
      · rename_i st3 h3
        exact List.IsPrefix.trans (hexStep_inr_pre _ _ h1)
          (List.IsPrefix.trans (hexStep_inr_pre _ _ h2)
            (List.IsPrefix.trans (hexStep_inr_pre _ _ h3) (hexStep_inr_pre _ _ h)))

lemma readStrLoop_out_pre : ∀ fuel inp out n, out <+: (readStrLoop fuel inp out n).out := by
  intro fuel inp out n
  induction fuel, inp, out, n using readStrLoop.induct
  all_goals simp only [readStrLoop, *]
  all_goals
    first
    | (simp; done)
    | (rename_i ih
       exact pre_of_pre_app _ _ _ ih)
    | (rename_i hx
       exact List.IsPrefix.trans (by simp) (hex4_inl_pre _ _ hx))
    | (rename_i hx ih
       exact List.IsPrefix.trans
         (List.IsPrefix.trans (by simp) (hex4_inr_pre _ _ hx)) ih)

/-- On success, the key buffer filled by `readString` starts with the
opening quote the routine writes first. -/
lemma readString_out_quote (sc : Scanner) (out : List Char) (n : Nat) (sc' : Scanner)
    (h : readString sc = ⟨out, n, sc', none⟩) : ∃ t, out = '"' :: t := by
  unfold readString at h
  split at h
  · simp [Res.mk.injEq] at h
  · split at h
    · simp [Res.mk.injEq] at h
    · rename_i r n1 sc1 hnext hne
      have hpre := readStrLoop_out_pre (sc1.inp.length + 1) sc1.inp ['"'] n1
      rw [h] at hpre
      obtain ⟨t, ht⟩ := hpre
      exact ⟨t, ht.symm⟩

/-- The rune sequence the object loop hands to the forwarding sink for its
accepted entries: the flag records whether an accepted entry was already
written (the accepted-key count is positive), in which case each further
entry is preceded by one comma. -/
def entriesOut : Bool → List (List Char) → List Char
  | _, [] => []
  | false, i :: is => i ++ entriesOut true is
  | true, i :: is => ',' :: (i ++ entriesOut true is)

lemma entriesOut_false_intercalate :
    ∀ items : List (List Char), entriesOut false items = List.intercalate [','] items := by
  intro items
  induction items with
  | nil => simp [entriesOut, List.intercalate]
  | cons i is ih =>
    cases is with
    | nil => simp [entriesOut, List.intercalate, List.intersperse]
    | cons j js =>
      simp only [entriesOut] at ih ⊢
      rw [ih]
      simp [List.intercalate, List.intersperse]

lemma quote_app (a x : List Char) (kt : List Char) (h : a = '"' :: kt) :
    ∃ t, a ++ x = '"' :: t :=
  ⟨kt ++ x, by simp [h]⟩

lemma objLoop_shape : ∀ fuel fl curr num sc out n sc',
    readObjectLoop fuel fl curr num sc = ⟨out, n, sc', none⟩ →
    ∃ items : List (List Char), (∀ it ∈ items, ∃ t, it = '"' :: t) ∧
      out = entriesOut (decide (0 < num)) items := by
  intro fuel
  induction fuel with
  | zero =>
    intro fl curr num sc out n sc' h
    simp [readObjectLoop] at h
  | succ fuel ih =>
    intro fl curr num sc out n sc' h
    simp only [readObjectLoop] at h
    split at h
    · simp [Res.mk.injEq] at h
    · rename_i hkerr
      split at h
      · simp [Res.mk.injEq] at h
      · rename_i r2 nn2 sc2 hnext
        split at h
        · simp [Res.mk.injEq] at h
        · have hkey := readString_out_quote sc _ _ _ (by rw [← hkerr])
          obtain ⟨kt, hkt⟩ := hkey
          have hgt : (num + 1 > 1) ↔ (0 < num) := by omega
          simp only [objAfterValue, hgt] at h
          cases hsk : skip fl (curr ++ '.' :: stripQuotes (readString sc).out) with
          | true =>
            simp only [hsk, if_true, List.nil_append, List.append_nil] at h
            split at h
            · simp [Res.mk.injEq] at h
            · split at h
              · simp [Res.mk.injEq] at h
              · split at h
                · simp only [Res.mk.injEq] at h
                  obtain ⟨ho, -, -, -⟩ := h
                  exact ⟨[], by simp, by simp [← ho, entriesOut]⟩
                · split at h
                  · simp only [Res.mk.injEq] at h
                    obtain ⟨ho, -, -, herr⟩ := h
                    obtain ⟨items, hsh, hout⟩ :=
                      ih fl curr num _ _ _ _ (by rw [← herr])
                    exact ⟨items, hsh, by simp [← ho, hout]⟩
                  · simp [Res.mk.injEq] at h
          | false =>
            simp only [hsk, if_false, Bool.false_eq_true, List.nil_append] at h
            simp only [hgt] at h
            by_cases h0 : 0 < num
            · simp only [if_pos h0] at h
              split at h
              · simp [Res.mk.injEq] at h
              · split at h
                · simp [Res.mk.injEq] at h
                · split at h
                  · simp only [Res.mk.injEq] at h
                    obtain ⟨ho, -, -, -⟩ := h
                    refine ⟨[(readString sc).out ++ ':' :: (readValue fuel fl
                      (curr ++ '.' :: stripQuotes (readString sc).out) sc2).out],
                      ?_, ?_⟩
                    · intro it hit
                      simp at hit
                      subst hit
                      exact quote_app _ _ _ hkt
                    · simp [← ho, entriesOut, h0]
                  · split at h
                    · simp only [Res.mk.injEq] at h
                      obtain ⟨ho, -, -, herr⟩ := h
                      obtain ⟨items, hsh, hout⟩ :=
                        ih fl curr (num + 1) _ _ _ _ (by rw [← herr])
                      rw [decide_eq_true (Nat.zero_lt_succ num)] at hout
                      refine ⟨((readString sc).out ++ ':' :: (readValue fuel fl
                        (curr ++ '.' :: stripQuotes (readString sc).out) sc2).out) :: items,
                        ?_, ?_⟩
                      · intro it hit
                        rcases List.mem_cons.mp hit with rfl | hit'
                        · exact quote_app _ _ _ hkt
                        · exact hsh it hit'
                      · simp [← ho, entriesOut, h0, hout]
                    · simp [Res.mk.injEq] at h
            · simp only [if_neg h0] at h
              split at h
              · simp [Res.mk.injEq] at h
              · split at h
                · simp [Res.mk.injEq] at h
                · split at h
                  · simp only [Res.mk.injEq] at h
                    obtain ⟨ho, -, -, -⟩ := h
                    refine ⟨[(readString sc).out ++ ':' :: (readValue fuel fl
                      (curr ++ '.' :: stripQuotes (readString sc).out) sc2).out],
                      ?_, ?_⟩
                    · intro it hit
                      simp at hit
                      subst hit
                      exact quote_app _ _ _ hkt
                    · simp [← ho, entriesOut, h0]
                  · split at h
                    · simp only [Res.mk.injEq] at h
                      obtain ⟨ho, -, -, herr⟩ := h
                      obtain ⟨items, hsh, hout⟩ :=
                        ih fl curr (num + 1) _ _ _ _ (by rw [← herr])
                      rw [decide_eq_true (Nat.zero_lt_succ num)] at hout
                      refine ⟨((readString sc).out ++ ':' :: (readValue fuel fl
                        (curr ++ '.' :: stripQuotes (readString sc).out) sc2).out) :: items,
                        ?_, ?_⟩
                      · intro it hit
                        rcases List.mem_cons.mp hit with rfl | hit'
                        · exact quote_app _ _ _ hkt
                        · exact hsh it hit'
                      · simp [← ho, entriesOut, h0, hout]
                    · simp [Res.mk.injEq] at h

lemma objLoop_shape_out (fuel : Nat) (fl : Filters) (curr : List Char) (num : Nat)
    (sc : Scanner) (h : (readObjectLoop fuel fl curr num sc).err = none) :
    ∃ items : List (List Char), (∀ it ∈ items, ∃ t, it = '"' :: t) ∧
      (readObjectLoop fuel fl curr num sc).out = entriesOut (decide (0 < num)) items :=
  objLoop_shape fuel fl curr num sc _ _ _ (by rw [← h])

/-- C5 amended: the object loop writes a comma to the selected sink before
a key exactly when the accepted-key count is already positive, so a
successfully parsed object's forwarded output is `\x7b`, the accepted
entries joined by single commas, then `\x7d` — each entry starting with the
quote of its key.  No duplicate or stray comma is ever introduced by the
comma placement itself (though `,,` may occur inside retained string
literals, as the counterexample shows). -/
theorem readObject_comma_structure : ∀ fuel fl curr sc out n sc',
    readObject fuel fl curr sc = ⟨out, n, sc', none⟩ →
    ∃ items : List (List Char), (∀ it ∈ items, ∃ t, it = '"' :: t) ∧
      out = '{' :: List.intercalate [','] items ++ ['}'] := by
  intro fuel fl curr sc out n sc' h
  cases fuel with
  | zero => simp [readObject] at h
  | succ fuel =>
    simp only [readObject] at h
    split at h
    · simp [Res.mk.injEq] at h
    · split at h
      · simp [Res.mk.injEq] at h
      · split at h
        · simp only [Res.mk.injEq] at h
          obtain ⟨ho, -, -, -⟩ := h
          rename_i hL
          obtain ⟨items, hsh, hout⟩ := objLoop_shape_out fuel fl curr 0 _ hL
          refine ⟨items, hsh, ?_⟩
          rw [← ho, hout]
          simp [entriesOut_false_intercalate]
        · simp [Res.mk.injEq] at h

/-- Witness for C5's amended theorem: both keys of
`\x7b"a":"x","b":"y"\x7d` are retained and the output decomposes as the two
entries joined by one comma. -/
theorem readObject_comma_structure_w :
    readObject 32 [".a".toList, ".b".toList] []
        ⟨"\x7b\"a\":\"x\",\"b\":\"y\"\x7d".toList, none⟩
      = ⟨"\x7b\"a\":\"x\",\"b\":\"y\"\x7d".toList, 17, ⟨[], some '}'⟩, none⟩ ∧
    ∃ items : List (List Char), (∀ it ∈ items, ∃ t, it = '"' :: t) ∧
      "\x7b\"a\":\"x\",\"b\":\"y\"\x7d".toList
        = '{' :: List.intercalate [','] items ++ ['}'] :=
  ⟨by decide,
   readObject_comma_structure 32 [".a".toList, ".b".toList] []
     ⟨"\x7b\"a\":\"x\",\"b\":\"y\"\x7d".toList, none⟩
     "\x7b\"a\":\"x\",\"b\":\"y\"\x7d".toList 17 ⟨[], some '}'⟩ (by decide)⟩

/-- C9: whenever an object-loop iteration (entered with parent path `curr`)
has read key token `kout` and the following colon, the value parse it
performs receives exactly the path `curr ++ "." ++` the unquoted key — and
the continuation for the next iteration (inside `objAfterValue`) is the
loop at the unchanged parent path `curr`, i.e. the path is restored before
the next sibling key. -/
theorem objLoop_path_invariant (fuel : Nat) (fl : Filters) (curr : List Char) (num : Nat)
    (sc scK sc2 : Scanner) (kout : List Char) (n1 nn2 : Nat)
    (hk : readString sc = ⟨kout, n1, scK, none⟩)
    (hc : next scK = (':', nn2, sc2, none)) :
    readObjectLoop (fuel + 1) fl curr num sc =
      (let path := curr ++ '.' :: stripQuotes kout
       let sk := skip fl path
       let num' := if sk then num else num + 1
       objAfterValue (readObjectLoop fuel fl curr num') sk
         ((if sk then [] else (if num' > 1 then [','] else []) ++ kout) ++
           if sk then [] else [':'])
         (n1 + nn2)
         (readValue fuel fl path sc2)) := by
  simp [readObjectLoop, hk, hc]

/-- Witness for C9 at the concrete loop input `"a":1\x7d` with no filters
and parent path `""`. -/
theorem objLoop_path_invariant_w :
    readString ⟨"\"a\":1\x7d".toList, none⟩
      = ⟨"\"a\"".toList, 3, ⟨[':', '1', '}'], some '"'⟩, none⟩ ∧
    next ⟨[':', '1', '}'], some '"'⟩ = (':', 1, ⟨['1', '}'], some ':'⟩, none) ∧
    readObjectLoop (8 + 1) [] [] 0 ⟨"\"a\":1\x7d".toList, none⟩ =
      (let path := [] ++ '.' :: stripQuotes "\"a\"".toList
       let sk := skip [] path
       let num' := if sk then 0 else 0 + 1
       objAfterValue (readObjectLoop 8 [] [] num') sk
         ((if sk then [] else (if num' > 1 then [','] else []) ++ "\"a\"".toList) ++
           if sk then [] else [':'])
         (3 + 1)
         (readValue 8 [] path ⟨['1', '}'], some ':'⟩)) :=
  ⟨by decide, by decide,
   objLoop_path_invariant 8 [] [] 0 ⟨"\"a\":1\x7d".toList, none⟩
     ⟨[':', '1', '}'], some '"'⟩ ⟨['1', '}'], some ':'⟩ "\"a\"".toList 3 1
     (by decide) (by decide)⟩

/-- A well-formed JSON string-token body as the claim words it: characters
until the closing quote, where a backslash must be followed by one of the
six short escapes, the quote, the slash, or `u` and exactly four hex
digits; the final rune is the closing quote. -/
inductive WfBody : List Char → Prop where
  | quote : WfBody ['"']
  | esc (e : Char) (rest : List Char) :
      shortEsc e = true → WfBody rest → WfBody ('\\' :: e :: rest)
  | hex (h1 h2 h3 h4 : Char) (rest : List Char) :
      hexDigit h1 = true → hexDigit h2 = true → hexDigit h3 = true →
      hexDigit h4 = true → WfBody rest →
      WfBody ('\\' :: 'u' :: h1 :: h2 :: h3 :: h4 :: rest)
  | plain (c : Char) (rest : List Char) :
      c ≠ '"' → c ≠ '\\' → WfBody rest → WfBody (c :: rest)

/-- A well-formed JSON string token: opening quote, body, closing quote. -/
def WfStrTok (s : List Char) : Prop := ∃ body, s = '"' :: body ∧ WfBody body

/-- UTF-8 byte length of a rune sequence (what the Go reader counts). -/
def byteLen (s : List Char) : Nat := (s.map runeLen).sum

lemma runeLen_quote : runeLen '"' = 1 := rfl

lemma runeLen_backslash : runeLen '\\' = 1 := rfl

lemma runeLen_u : runeLen 'u' = 1 := rfl

lemma hex4_hex (a b cc d : Char) (tail out : List Char) (n : Nat)
    (ha : hexDigit a = true) (hb : hexDigit b = true) (hc : hexDigit cc = true)
    (hd : hexDigit d = true) :
    hex4 (a :: b :: cc :: d :: tail, out, n)
      = .inr (tail, out ++ [a, b, cc, d],
          n + runeLen a + runeLen b + runeLen cc + runeLen d) := by
  simp [hex4, hexStep, ha, hb, hc, hd]

lemma readStrLoop_quote (f : Nat) (rest acc : List Char) (n : Nat) :
    readStrLoop (f + 1) ('"' :: rest) acc n
      = ⟨acc ++ ['"'], n + runeLen '"', ⟨rest, some '"'⟩, none⟩ := by
  cases rest <;> simp [readStrLoop]

lemma readStrLoop_esc (f : Nat) (e : Char) (rest acc : List Char) (n : Nat)
    (he : shortEsc e = true) :
    readStrLoop (f + 1) ('\\' :: e :: rest) acc n
      = readStrLoop f rest (acc ++ ['\\', e]) (n + runeLen '\\' + runeLen e) := by
  simp [readStrLoop, he]

lemma readStrLoop_u (f : Nat) (rest acc : List Char) (n : Nat) :
    readStrLoop (f + 1) ('\\' :: 'u' :: rest) acc n
      = (match hex4 (rest, acc ++ ['\\', 'u'], n + runeLen '\\' + runeLen 'u') with
         | .inl r => r
         | .inr (restH, outH, nH) => readStrLoop f restH outH nH) := by
  simp [readStrLoop, shortEsc]

lemma readStrLoop_badesc (f : Nat) (e : Char) (rest acc : List Char) (n : Nat)
    (h1 : ¬shortEsc e = true) (h2 : ¬e = 'u') :
    readStrLoop (f + 1) ('\\' :: e :: rest) acc n
      = ⟨acc ++ ['\\'], n + runeLen '\\' + runeLen e, ⟨rest, some e⟩,
          some (escErrMsg e)⟩ := by
  simp [readStrLoop, h1, h2]

lemma readStrLoop_plain (f : Nat) (c : Char) (rest acc : List Char) (n : Nat)
    (h1 : ¬c = '"') (h2 : ¬c = '\\') :
    readStrLoop (f + 1) (c :: rest) acc n
      = readStrLoop f rest (acc ++ [c]) (n + runeLen c) := by
  cases rest <;> simp [readStrLoop, h1, h2]

lemma readStrLoop_roundtrip : ∀ body, WfBody body →
    ∀ fuel rest acc n, body.length < fuel →
    readStrLoop fuel (body ++ rest) acc n
      = ⟨acc ++ body, n + byteLen body, ⟨rest, some '"'⟩, none⟩ := by
  intro body hwf
  induction hwf with
  | quote =>
    intro fuel rest acc n hfuel
    match fuel, hfuel with
    | f + 1, _ =>
      rw [List.cons_append, List.nil_append, readStrLoop_quote]
      simp [byteLen]
  | esc e rest2 he hrec ih =>
    intro fuel rest acc n hfuel
    match fuel, hfuel with
    | f + 1, hfuel =>
      have hlt : rest2.length < f := by
        simp only [List.length_cons] at hfuel
        omega
      rw [List.cons_append, List.cons_append, readStrLoop_esc f e _ _ _ he]
      rw [ih f rest _ _ hlt]
      simp [byteLen, List.append_assoc]
      try omega
  | hex h1 h2 h3 h4 r6 hh1 hh2 hh3 hh4 hrec ih =>
    intro fuel rest acc n hfuel
    match fuel, hfuel with
    | f + 1, hfuel =>
      have hlt : r6.length < f := by
        simp only [List.length_cons] at hfuel
        omega
      simp only [List.cons_append]
      rw [readStrLoop_u]
      rw [hex4_hex h1 h2 h3 h4 (r6 ++ rest) (acc ++ ['\\', 'u'])
        (n + runeLen '\\' + runeLen 'u') hh1 hh2 hh3 hh4]
      dsimp only
      rw [ih f rest _ _ hlt]
      simp [byteLen, List.append_assoc]
      try omega
  | plain c rest2 hq hbne hrec ih =>
    intro fuel rest acc n hfuel
    match fuel, hfuel with
    | f + 1, hfuel =>
      have hlt : rest2.length < f := by
        simp only [List.length_cons] at hfuel
        omega
      rw [List.cons_append, readStrLoop_plain f c _ _ _ hq hbne]
      rw [ih f rest _ _ hlt]
      simp [byteLen, List.append_assoc]
      try omega

lemma readStrLoop_badesc_err : ∀ (pre : List Char), (∀ x ∈ pre, x ≠ '"' ∧ x ≠ '\\') →
    ∀ fuel (c : Char) rest acc n, pre.length < fuel →
    shortEsc c = false → c ≠ 'u' →
    (readStrLoop fuel (pre ++ '\\' :: c :: rest) acc n).err = some (escErrMsg c) := by
  intro pre
  induction pre with
  | nil =>
    intro _ fuel c rest acc n hfuel hc hcu
    match fuel, hfuel with
    | f + 1, _ =>
      rw [List.nil_append, readStrLoop_badesc f c rest acc n (by simp [hc]) hcu]
  | cons x pre' ih =>
    intro hmem fuel c rest acc n hfuel hc hcu
    obtain ⟨hx1, hx2⟩ := hmem x (List.mem_cons_self x pre')
    match fuel, hfuel with
    | f + 1, hfuel =>
      have hlt : pre'.length < f := by
        simp only [List.length_cons] at hfuel
        omega
      rw [List.cons_append, readStrLoop_plain f x _ _ _ hx1 hx2]
      exact ih (fun y hy => hmem y (List.mem_cons_of_mem x hy)) f c rest _ _ hlt hc hcu

lemma next_quote (X : List Char) (lr : Option Char) :
    next ⟨'"' :: X, lr⟩ = ('"', 1, ⟨X, some '"'⟩, none) := rfl

lemma readString_quote (X : List Char) (lr : Option Char) :
    readString ⟨'"' :: X, lr⟩ = readStrLoop (X.length + 1) X ['"'] 1 := by
  rw [readString.eq_def, next_quote]
  simp

/-- C8: a well-formed JSON string token — opening quote, characters, the
backslash escapes `"`, `\`, `/`, `b`, `f`, `n`, `r`, `t` or `\u` with four
case-insensitive hex digits, closing quote — is copied to the sink rune
for rune identical to the input, consuming exactly the token's bytes; and
any other character right after a backslash makes `readString` fail with
the grammar error for an unexpected escape. -/
theorem readString_verbatim :
    (∀ (s rest : List Char) (lr : Option Char), WfStrTok s →
      readString ⟨s ++ rest, lr⟩ = ⟨s, byteLen s, ⟨rest, some '"'⟩, none⟩) ∧
    (∀ (pre : List Char) (c : Char) (rest : List Char) (lr : Option Char),
      (∀ x ∈ pre, x ≠ '"' ∧ x ≠ '\\') → shortEsc c = false → c ≠ 'u' →
      (readString ⟨'"' :: (pre ++ '\\' :: c :: rest), lr⟩).err
        = some (escErrMsg c)) := by
  constructor
  · intro s rest lr hs
    obtain ⟨body, rfl, hwf⟩ := hs
    rw [List.cons_append, readString_quote]
    rw [readStrLoop_roundtrip body hwf ((body ++ rest).length + 1) rest ['"'] 1
      (by simp [List.length_append]; omega)]
    simp [byteLen, runeLen_quote, Res.mk.injEq]
    try omega
  · intro pre c rest lr hmem hc hcu
    rw [readString_quote]
    exact readStrLoop_badesc_err pre hmem _ c rest ['"'] 1
      (by simp [List.length_append]; omega) hc hcu

/-- Witness for C8: the token `"a\n"` round-trips in front of a trailing
`x`, and the bad escape `\q` after the prefix `ab` is rejected. -/
theorem readString_verbatim_w :
    readString ⟨"\"a\\n\"".toList ++ ['x'], none⟩
      = ⟨"\"a\\n\"".toList, byteLen "\"a\\n\"".toList, ⟨['x'], some '"'⟩, none⟩ ∧
    (readString ⟨'"' :: (['a', 'b'] ++ '\\' :: 'q' :: ['c', 'd', '"']), none⟩).err
      = some (escErrMsg 'q') :=
  ⟨readString_verbatim.1 "\"a\\n\"".toList ['x'] none
     ⟨['a', '\\', 'n', '"'], rfl,
      WfBody.plain 'a' _ (by decide) (by decide)
        (WfBody.esc 'n' ['"'] (by decide) WfBody.quote)⟩,
   readString_verbatim.2 ['a', 'b'] 'q' ['c', 'd', '"'] none (by decide)
     (by decide) (by decide)⟩

/-- C5 counterexample: with filter `.a` the document `\x7b"a":",,"\x7d` is
filtered successfully and its output — the input itself — contains the
two-character sequence `,,` (inside the retained string literal), so the
output does contain a "duplicate comma" as a byte sequence. -/
theorem literal_commas_in_output :
    runView [".a".toList] "\x7b\"a\":\",,\"\x7d".toList
      = ("\x7b\"a\":\",,\"\x7d".toList, some GoErr.eof) ∧
    [',', ','] <:+: (runView [".a".toList] "\x7b\"a\":\",,\"\x7d".toList).1 := by
  decide

end Jsonviews
